import Mathlib

/-!
Verification of the natural-language specification of `src/pdf_parser.py`
against a shallow embedding of its code.

The embedding translates the source functions into Lean:
strings become `List Char`, floats provided by the external extraction
collaborators (bounding-box coordinates, font sizes) become `ℚ`,
Python exceptions become `Option`/`Except`, and the two external
collaborators (PyMuPDF and camelot) are modeled by their outputs, which
are inputs of the embedded functions.  Python's `list.sort` is a stable
sort and is embedded as `List.insertionSort`, which is also stable.
-/

namespace PdfToJson

abbrev Txt := List Char

/-- Python's whitespace class as used by `re.\s`, `str.strip()` and
`str.split()` (the ASCII part: space, tab, newline, carriage return,
vertical tab, form feed). -/
def isWS (c : Char) : Bool :=
  c = ' ' || c = '\t' || c = '\n' || c = '\r' || c = '\x0b' || c = '\x0c'

/-- `re.sub(r'\s*\n\s*', ' ', text)` (line 64): each maximal whitespace run
that contains a newline is replaced by one space; whitespace runs without a
newline and all other characters are kept.  `pending` is the whitespace run
read so far and not yet emitted. -/
def subNlGo (pending : Txt) : Txt → Txt
  | [] => if pending.isEmpty then [] else if pending.contains '\n' then [' '] else pending
  | c :: cs =>
    if isWS c then subNlGo (pending ++ [c]) cs
    else (if pending.isEmpty then []
          else if pending.contains '\n' then [' '] else pending) ++ c :: subNlGo [] cs

/-- `re.sub(r'\s+', ' ', text)` (line 65): each maximal whitespace run is
replaced by one space.  `inRun` records whether the previous character was
whitespace (i.e. whether the current run has already emitted its space). -/
def collapseGo (inRun : Bool) : Txt → Txt
  | [] => []
  | c :: cs =>
    if isWS c then (if inRun then collapseGo true cs else ' ' :: collapseGo true cs)
    else c :: collapseGo false cs

/-- Python `str.strip()`: remove leading and trailing whitespace. -/
def pyStrip (l : Txt) : Txt := ((l.dropWhile isWS).reverse.dropWhile isWS).reverse

/-- `clean_text` from the source (lines 61-66): the two regex substitutions
followed by `strip()`. -/
def clean_text (text : Txt) : Txt := pyStrip (collapseGo false (subNlGo [] text))

/-- Python `str.split()` with no argument: the list of maximal runs of
non-whitespace characters.  `acc` holds the current word, reversed. -/
def splitGo (acc : Txt) : Txt → List Txt
  | [] => if acc.isEmpty then [] else [acc.reverse]
  | c :: cs =>
    if isWS c then (if acc.isEmpty then splitGo [] cs else acc.reverse :: splitGo [] cs)
    else splitGo (c :: acc) cs

/-- Python `str.split()` with no argument. -/
def pySplit (l : Txt) : List Txt := splitGo [] l

/-- `HEADING_FONT_SIZE_THRESHOLD = 14.0` (line 16). -/
def HEADING_FONT_SIZE_THRESHOLD : ℚ := 14
/-- `SUBHEADING_FONT_SIZE_THRESHOLD = 11.5` (line 17), written as the
rational 23/2. -/
def SUBHEADING_FONT_SIZE_THRESHOLD : ℚ := mkRat 23 2
/-- `HEADING_WORD_COUNT_THRESHOLD = 10` (line 19). -/
def HEADING_WORD_COUNT_THRESHOLD : Nat := 10

/-- One text span as delivered by `page.get_text("dict")`: only the fields the
source reads (`text`, `size`, `font`). -/
structure Span where
  text : Txt
  size : ℚ
  font : Txt
  deriving DecidableEq

/-- One line of a text block: its span list. -/
structure Line where
  spans : List Span
  deriving DecidableEq

/-- One text block: its line list (the source reads nothing else in
`classify_text_block`). -/
structure TextBlock where
  lines : List Line
  deriving DecidableEq

/-- Substring test: Python's `pat in s`. -/
def hasSubstr (pat : Txt) : Txt → Bool
  | [] => pat.isEmpty
  | c :: cs => pat.isPrefixOf (c :: cs) || hasSubstr pat cs

/-- `is_bold` from the source (lines 21-23): `"bold" in span['font'].lower()`. -/
def is_bold (span : Span) : Bool :=
  hasSubstr ['b', 'o', 'l', 'd'] (span.font.map Char.toLower)

/-- The classification outcome of `classify_text_block`: the strings
`"section"`, `"sub_section"`, `"paragraph"` of the source. -/
inductive Tier
  | Section
  | SubSection
  | Paragraph
  deriving DecidableEq

/-- `classify_text_block` from the source (lines 25-50).  The source indexes
`first_line['spans'][0]` without a guard, so a first line with an empty span
list raises `IndexError`; that raise is modeled as `none`. -/
def classify_text_block (block : TextBlock) : Option Tier :=
  match block.lines with
  | [] => some Tier.Paragraph
  | first_line :: _ =>
    match first_line.spans with
    | [] => none
    | first_span :: _ =>
      let font_size := first_span.size
      let text := pyStrip ((first_line.spans.map Span.text).flatten)
      let word_count := (pySplit text).length
      if HEADING_FONT_SIZE_THRESHOLD < font_size ∧ is_bold first_span = true then
        some Tier.Section
      else if SUBHEADING_FONT_SIZE_THRESHOLD < font_size ∧ is_bold first_span = true then
        some Tier.SubSection
      else if is_bold first_span = true ∧ word_count < HEADING_WORD_COUNT_THRESHOLD then
        some Tier.SubSection
      else some Tier.Paragraph

/-- One table as delivered by camelot for one page: the `_bbox` top coordinate
the source uses for ordering, and the dataframe's column row and value rows. -/
structure TableInput where
  y0 : ℚ
  columns : List Txt
  values : List (List Txt)
  deriving DecidableEq

/-- `extract_tables_from_page` from the source (lines 52-59): the camelot call
either returns the page's tables or raises; a raise is caught, logged, and
turned into the empty list. -/
def extract_tables_from_page (result : Except String (List TableInput)) : List TableInput :=
  match result with
  | .ok tables => tables
  | .error _ => []

/-- One block of `page.get_text("dict")['blocks']`: either a text block
(carrying a `'lines'` key) or a block without `'lines'` (e.g. an image
block); both carry a bounding box whose second coordinate is used as the
sort key. -/
inductive RawBlock
  | withLines (y0 : ℚ) (lines : List Line)
  | noLines (y0 : ℚ)
  deriving DecidableEq

/-- One image as delivered by `page.get_images(full=True)` together with the
top coordinate of `page.get_image_bbox`. -/
structure ImageInput where
  y0 : ℚ
  deriving DecidableEq

/-- Everything the two extraction collaborators deliver for one page.
`tables` is the outcome of the camelot call for this page (lines 78-79):
`.error` models the call raising. -/
structure PageInput where
  blocks : List RawBlock
  tables : Except String (List TableInput)
  images : List ImageInput

/-- One entry of the per-page `elements` list (lines 89-114): a
`get_text` block, a table placeholder, or a chart placeholder. -/
inductive Elem
  | block (b : RawBlock)
  | tablePh (y0 : ℚ) (table_data : List (List Txt))
  | chartPh (y0 : ℚ) (description : Txt)
  deriving DecidableEq

/-- `el['bbox'][1]` of a raw block. -/
def RawBlock.y0 : RawBlock → ℚ
  | .withLines y _ => y
  | .noLines y => y

/-- `el['bbox'][1]`, the sort key of line 117. -/
def Elem.y0 : Elem → ℚ
  | .block b => b.y0
  | .tablePh y _ => y
  | .chartPh y _ => y

/-- Whether an element is a `get_text` block (text or no-lines), as opposed to
a table or chart placeholder. -/
def Elem.isBlock : Elem → Bool
  | .block _ => true
  | _ => false

/-- `f"Image/Chart {img_index + 1} on page {page_num}"` (line 113). -/
def chartDescription (i page_num : Nat) : Txt :=
  "Image/Chart ".toList ++ (toString i).toList ++ " on page ".toList ++ (toString page_num).toList

/-- The per-page element list before sorting (lines 89-114): the `get_text`
blocks, then one table placeholder per extracted table (with
`[df.columns] + df.values` as `table_data`), then one chart placeholder per
image, in extractor order. -/
def rawElems (page_num : Nat) (pin : PageInput) : List Elem :=
  pin.blocks.map Elem.block
    ++ (extract_tables_from_page pin.tables).map
        (fun t => Elem.tablePh t.y0 (t.columns :: t.values))
    ++ pin.images.enum.map
        (fun p => Elem.chartPh p.2.y0 (chartDescription (p.1 + 1) page_num))

/-- `elements.sort(key=lambda el: el['bbox'][1])` (line 117): Python's sort is
stable; embedded as the stable `List.insertionSort`. -/
def mergedElems (page_num : Nat) (pin : PageInput) : List Elem :=
  List.insertionSort (fun a b => a.y0 ≤ b.y0) (rawElems page_num pin)

/-- The section tracker state: `(current_section, current_sub_section)`
(lines 81-82), `none` = Python `None`. -/
abbrev SecState := Option Txt × Option Txt

/-- The tracker transition of lines 157-161, keyed by the classified tier of
a text block with cleaned text `text`. -/
def updateState (st : SecState) (tier : Tier) (text : Txt) : SecState :=
  match tier with
  | .Section => (some text, none)
  | .SubSection => (st.1, some text)
  | .Paragraph => st

/-- One item of a page's `content` list.  The constant fields of the source
(`description: None` on tables, `Table_data: None` on charts) are not
represented. -/
inductive ContentItem
  | paragraph (sec sub : Option Txt) (text : Txt)
  | table (sec sub : Option Txt) (table_data : List (List Txt))
  | chart (sec sub : Option Txt) (description : Txt)
  deriving DecidableEq

/-- The `"section"` field stamped on a content item. -/
def ContentItem.sec : ContentItem → Option Txt
  | .paragraph s _ _ => s
  | .table s _ _ => s
  | .chart s _ _ => s

/-- The `"sub_section"` field stamped on a content item. -/
def ContentItem.sub : ContentItem → Option Txt
  | .paragraph _ s _ => s
  | .table _ s _ => s
  | .chart _ s _ => s

/-- Whether a content item has `"type": "table"`. -/
def ContentItem.isTable : ContentItem → Bool
  | .table _ _ _ => true
  | _ => false

/-- Lines 147-150: `block_text`, the cleaned `" ".join` of all span texts of
a text block. -/
def blockText (lines : List Line) : Txt :=
  clean_text (List.intercalate [' '] ((lines.map fun l => l.spans.map Span.text).flatten))

/-- The loop body of lines 119-171 for one merged element: the tracker state
after the element and the emitted content item, if any.  The result is `none`
when the source would raise (`classify_text_block` on a first line with no
spans). -/
def processElement (st : SecState) (el : Elem) : Option (SecState × Option ContentItem) :=
  match el with
  | .tablePh _ data => some (st, some (.table st.1 st.2 data))
  | .chartPh _ d => some (st, some (.chart st.1 st.2 d))
  | .block (.noLines _) => some (st, none)
  | .block (.withLines _ lines) =>
    let block_text := blockText lines
    if block_text.isEmpty then some (st, none)
    else
      match classify_text_block ⟨lines⟩ with
      | none => none
      | some tier =>
        let st2 := updateState st tier block_text
        some (st2, some (.paragraph st2.1 st2.2 block_text))

/-- The element loop of lines 119-171 over a whole merged element list:
final tracker state and the page's content list. -/
def stampLoop (st : SecState) : List Elem → Option (SecState × List ContentItem)
  | [] => some (st, [])
  | e :: es =>
    match processElement st e with
    | none => none
    | some (st2, it) =>
      match stampLoop st2 es with
      | none => none
      | some (st3, items) => some (st3, it.toList ++ items)

/-- One output page: `{"page_number": ..., "content": [...]}` (lines 173-176). -/
structure Page where
  page_number : Nat
  content : List ContentItem
  deriving DecidableEq

/-- The output document: `{"pages": [...]}` (line 74). -/
structure Document where
  pages : List Page
  deriving DecidableEq

/-- Processing of one page (lines 84-176): merge, then the stamped loop. -/
def processPage (st : SecState) (page_num : Nat) (pin : PageInput) :
    Option (SecState × Page) :=
  match stampLoop st (mergedElems page_num pin) with
  | none => none
  | some (st2, items) => some (st2, ⟨page_num, items⟩)

/-- The page loop of line 84: pages in order, tracker state threaded through
with no reset between pages. -/
def parsePages (st : SecState) (page_num : Nat) : List PageInput → Option (List Page)
  | [] => some []
  | pin :: rest =>
    match processPage st page_num pin with
    | none => none
    | some (st2, pg) =>
      match parsePages st2 (page_num + 1) rest with
      | none => none
      | some pgs => some (pg :: pgs)

/-- `parse_pdf_to_json` (lines 68-179).  `opened = none` models `fitz.open`
raising (the document cannot be opened): the exception propagates to the
caller.  `opened = some pins` is the opened document's per-page extraction
data, one entry per page. -/
def parse_pdf_to_json (opened : Option (List PageInput)) : Option Document :=
  match opened with
  | none => none
  | some pins => (parsePages (none, none) 1 pins).map Document.mk

/-! Definitions taken from the specification's words, for the refinement
claims; they are compared with the source-derived definitions above. -/

/-- Modelled from the spec (§4.1): "every maximal run of whitespace (including
newlines) collapses to one ASCII space; leading/trailing whitespace is
trimmed". -/
def cleanTextSpec (t : Txt) : Txt := pyStrip (collapseGo false t)

/-- Modelled from the spec (§4.2, steps 4-7): the classifier's decision table
on the first span's font size and weight signal and the first line's word
count, first match wins. -/
def classifySpec (first_span : Span) (word_count : Nat) : Tier :=
  if HEADING_FONT_SIZE_THRESHOLD < first_span.size ∧ is_bold first_span = true then
    Tier.Section
  else if SUBHEADING_FONT_SIZE_THRESHOLD < first_span.size ∧ is_bold first_span = true then
    Tier.SubSection
  else if is_bold first_span = true ∧ word_count < HEADING_WORD_COUNT_THRESHOLD then
    Tier.SubSection
  else Tier.Paragraph

/-- The whitespace-separated word count of a line's text (the concatenation of
its span texts). -/
def firstLineWordCount (l : Line) : Nat :=
  (pySplit ((l.spans.map Span.text).flatten)).length

/-- No two adjacent whitespace characters. -/
def NoAdjWS (l : Txt) : Prop := l.Chain' fun a b => ¬(isWS a = true ∧ isWS b = true)

/-- An already-clean string: no leading or trailing whitespace, no two
adjacent whitespace characters, and every whitespace character is the ASCII
space. -/
def Clean (l : Txt) : Prop :=
  (∀ c ∈ l.head?, isWS c = false) ∧ (∀ c ∈ l.getLast?, isWS c = false) ∧
    NoAdjWS l ∧ ∀ c ∈ l, isWS c = true → c = ' '

/-- Replace the camelot outcome of one page's input. -/
def setTables (pin : PageInput) (r : Except String (List TableInput)) : PageInput :=
  { pin with tables := r }

/-! ### Lemmas about the text normalizer -/

theorem collapseGo_true_ws_append (t r : Txt) (h : ∀ c ∈ t, isWS c = true) :
    collapseGo true (t ++ r) = collapseGo true r := by
  induction t with
  | nil => rfl
  | cons c cs ih =>
    have hc : isWS c = true := h c (by simp)
    simp only [List.cons_append, collapseGo, hc, if_true]
    exact ih fun x hx => h x (by simp [hx])

theorem collapseGo_false_ws_append (F r : Txt) (hne : F ≠ []) (h : ∀ c ∈ F, isWS c = true) :
    collapseGo false (F ++ r) = ' ' :: collapseGo true r := by
  cases F with
  | nil => exact absurd rfl hne
  | cons f F2 =>
    have hf : isWS f = true := h f (by simp)
    simp only [List.cons_append, collapseGo, hf, if_true, Bool.false_eq_true, if_false,
      List.append_eq]
    rw [collapseGo_true_ws_append F2 r fun x hx => h x (by simp [hx])]

theorem subNl_collapse_main (l : Txt) :
    collapseGo false (subNlGo [] l) = collapseGo false l ∧
      ∀ pending, pending ≠ [] → (∀ c ∈ pending, isWS c = true) →
        collapseGo false (subNlGo pending l) = ' ' :: collapseGo true l := by
  induction l with
  | nil =>
    constructor
    · rfl
    · intro pending hne hws
      have hpe : pending.isEmpty = false := by
        cases pending with
        | nil => exact absurd rfl hne
        | cons p ps => rfl
      by_cases hnl : pending.contains '\n' = true
      · simp only [subNlGo, hpe, Bool.false_eq_true, if_false, hnl, if_true]
        simp [collapseGo, isWS]
      · simp only [subNlGo, hpe, Bool.false_eq_true, if_false, hnl]
        have h1 := collapseGo_false_ws_append pending [] hne hws
        simpa using h1
  | cons c cs ih =>
    by_cases hc : isWS c = true
    · constructor
      · have h1 : subNlGo [] (c :: cs) = subNlGo [c] cs := by simp [subNlGo, hc]
        rw [h1, ih.2 [c] (by simp) (by simpa using hc)]
        simp [collapseGo, hc]
      · intro pending hne hws
        have h1 : subNlGo pending (c :: cs) = subNlGo (pending ++ [c]) cs := by
          simp [subNlGo, hc]
        rw [h1, ih.2 (pending ++ [c]) (by simp) ?_]
        · simp [collapseGo, hc]
        · intro x hx
          rcases List.mem_append.mp hx with h | h
          · exact hws x h
          · simp only [List.mem_singleton] at h
            exact h ▸ hc
    · constructor
      · have h1 : subNlGo [] (c :: cs) = c :: subNlGo [] cs := by simp [subNlGo, hc]
        rw [h1]
        have h2 : collapseGo false (c :: subNlGo [] cs) = c :: collapseGo false (subNlGo [] cs) := by
          simp [collapseGo, hc]
        rw [h2, ih.1]
        simp [collapseGo, hc]
      · intro pending hne hws
        have hpe : pending.isEmpty = false := by
          cases pending with
          | nil => exact absurd rfl hne
          | cons p ps => rfl
        set F : Txt := if pending.contains '\n' = true then [' '] else pending with hF
        have h1 : subNlGo pending (c :: cs) = F ++ c :: subNlGo [] cs := by
          simp only [subNlGo, hc, Bool.false_eq_true, if_false, hpe, hF]
        have hFne : F ≠ [] := by
          rw [hF]
          split
          · simp
          · exact hne
        have hFws : ∀ x ∈ F, isWS x = true := by
          rw [hF]
          split
          · intro x hx
            simp only [List.mem_singleton] at hx
            subst hx
            rfl
          · exact hws
        rw [h1, collapseGo_false_ws_append F (c :: subNlGo [] cs) hFne hFws]
        have h3 : collapseGo true (c :: subNlGo [] cs) = c :: collapseGo false (subNlGo [] cs) := by
          simp [collapseGo, hc]
        rw [h3, ih.1]
        simp [collapseGo, hc]

theorem collapseGo_ws_space :
    ∀ (l : Txt) (b : Bool) (c : Char), c ∈ collapseGo b l → isWS c = true → c = ' ' := by
  intro l
  induction l with
  | nil => intro b c h; simp [collapseGo] at h
  | cons d ds ih =>
    intro b c hc hws
    by_cases hd : isWS d = true
    · cases b with
      | true =>
        rw [show collapseGo true (d :: ds) = collapseGo true ds from by simp [collapseGo, hd]] at hc
        exact ih true c hc hws
      | false =>
        rw [show collapseGo false (d :: ds) = ' ' :: collapseGo true ds from by
          simp [collapseGo, hd]] at hc
        rcases List.mem_cons.mp hc with h | h
        · exact h
        · exact ih true c h hws
    · rw [show collapseGo b (d :: ds) = d :: collapseGo false ds from by
        simp [collapseGo, hd]] at hc
      rcases List.mem_cons.mp hc with h | h
      · subst h
        exact absurd hws hd
      · exact ih false c h hws

theorem collapseGo_true_head (l : Txt) (d : Char)
    (h : (collapseGo true l).head? = some d) : isWS d = false := by
  induction l with
  | nil => simp [collapseGo] at h
  | cons c cs ih =>
    by_cases hc : isWS c = true
    · rw [show collapseGo true (c :: cs) = collapseGo true cs from by simp [collapseGo, hc]] at h
      exact ih h
    · rw [show collapseGo true (c :: cs) = c :: collapseGo false cs from by
        simp [collapseGo, hc]] at h
      simp only [List.head?_cons, Option.some.injEq] at h
      subst h
      exact Bool.not_eq_true _ ▸ hc

theorem noAdjWS_collapseGo (l : Txt) : ∀ b : Bool, NoAdjWS (collapseGo b l) := by
  unfold NoAdjWS
  induction l with
  | nil => intro b; exact List.chain'_nil
  | cons c cs ih =>
    intro b
    by_cases hc : isWS c = true
    · cases b with
      | true =>
        rw [show collapseGo true (c :: cs) = collapseGo true cs from by simp [collapseGo, hc]]
        exact ih true
      | false =>
        rw [show collapseGo false (c :: cs) = ' ' :: collapseGo true cs from by
          simp [collapseGo, hc]]
        refine List.chain'_cons'.mpr ⟨?_, ih true⟩
        intro y hy
        have hy2 : isWS y = false := collapseGo_true_head cs y hy
        simp [hy2]
    · rw [show collapseGo b (c :: cs) = c :: collapseGo false cs from by simp [collapseGo, hc]]
      refine List.chain'_cons'.mpr ⟨?_, ih false⟩
      intro y hy
      simp [Bool.not_eq_true _ ▸ hc]

theorem dropWhile_head_not (p : Char → Bool) (l : Txt) (c : Char)
    (h : (l.dropWhile p).head? = some c) : p c = false := by
  induction l with
  | nil => simp [List.dropWhile] at h
  | cons d ds ih =>
    by_cases hd : p d = true
    · rw [List.dropWhile_cons, if_pos hd] at h
      exact ih h
    · rw [List.dropWhile_cons, if_neg hd] at h
      simp only [List.head?_cons, Option.some.injEq] at h
      subst h
      exact Bool.not_eq_true _ ▸ hd

theorem getLast?_of_suffix {α : Type} {u v : List α} (h : v <:+ u) {c : α}
    (hc : v.getLast? = some c) : u.getLast? = some c := by
  obtain ⟨t, rfl⟩ := h
  rw [List.getLast?_append, hc]
  rfl

theorem pyStrip_head (l : Txt) (c : Char) (h : (pyStrip l).head? = some c) : isWS c = false := by
  unfold pyStrip at h
  rw [List.head?_reverse] at h
  have h2 : ((l.dropWhile isWS).reverse).getLast? = some c :=
    getLast?_of_suffix (List.dropWhile_suffix _) h
  rw [List.getLast?_reverse] at h2
  exact dropWhile_head_not _ _ _ h2

theorem pyStrip_getLast (l : Txt) (c : Char) (h : (pyStrip l).getLast? = some c) :
    isWS c = false := by
  unfold pyStrip at h
  rw [List.getLast?_reverse] at h
  exact dropWhile_head_not _ _ _ h

theorem pyStrip_subset {l : Txt} {c : Char} (h : c ∈ pyStrip l) : c ∈ l := by
  unfold pyStrip at h
  rw [List.mem_reverse] at h
  have h2 := (List.dropWhile_sublist _).subset h
  rw [List.mem_reverse] at h2
  exact (List.dropWhile_sublist _).subset h2

theorem noAdjWS_reverse {l : Txt} (h : NoAdjWS l) : NoAdjWS l.reverse := by
  unfold NoAdjWS at *
  rw [List.chain'_reverse]
  exact h.imp fun a b hab hc => hab ⟨hc.2, hc.1⟩

theorem noAdjWS_pyStrip {l : Txt} (h : NoAdjWS l) : NoAdjWS (pyStrip l) := by
  unfold NoAdjWS at *
  unfold pyStrip
  have h1 := List.Chain'.suffix h (List.dropWhile_suffix isWS)
  have h2 := noAdjWS_reverse h1
  unfold NoAdjWS at h2
  have h3 := List.Chain'.suffix h2 (List.dropWhile_suffix isWS)
  exact noAdjWS_reverse h3

theorem clean_text_clean (t : Txt) : Clean (clean_text t) := by
  unfold Clean clean_text
  refine ⟨?_, ?_, ?_, ?_⟩
  · intro c hc
    exact pyStrip_head _ c hc
  · intro c hc
    exact pyStrip_getLast _ c hc
  · exact noAdjWS_pyStrip (noAdjWS_collapseGo _ false)
  · intro c hc hws
    exact collapseGo_ws_space _ false c (pyStrip_subset hc) hws

theorem subNlGo_space_only :
    ∀ (l pending : Txt), (∀ c ∈ pending, isWS c = true → c = ' ') →
      (∀ c ∈ l, isWS c = true → c = ' ') → subNlGo pending l = pending ++ l := by
  intro l
  induction l with
  | nil =>
    intro pending hp _
    cases pending with
    | nil => rfl
    | cons p ps =>
      have hnm : '\n' ∉ p :: ps := by
        intro hmem
        exact absurd (hp '\n' hmem rfl) (by decide)
      show (if (p :: ps).isEmpty = true then ([] : Txt)
        else if (p :: ps).contains '\n' = true then [' '] else p :: ps) = (p :: ps) ++ []
      rw [if_neg (by simp), if_neg (by simpa using hnm), List.append_nil]
  | cons c cs ih =>
    intro pending hp hl
    by_cases hc : isWS c = true
    · have hceq : c = ' ' := hl c (by simp) hc
      rw [show subNlGo pending (c :: cs) = subNlGo (pending ++ [c]) cs from by
        simp [subNlGo, hc]]
      rw [ih (pending ++ [c]) ?_ fun x hx => hl x (by simp [hx])]
      · simp
      · intro x hx
        rcases List.mem_append.mp hx with h | h
        · exact hp x h
        · simp only [List.mem_singleton] at h
          subst h
          intro _
          exact hceq
    · have hfl : (if pending.isEmpty = true then ([] : Txt)
          else if pending.contains '\n' = true then [' '] else pending) = pending := by
        cases pending with
        | nil => rfl
        | cons p ps =>
          have hnm : '\n' ∉ p :: ps := by
            intro hmem
            exact absurd (hp '\n' hmem rfl) (by decide)
          rw [if_neg (by simp), if_neg (by simpa using hnm)]
      rw [show subNlGo pending (c :: cs) =
          (if pending.isEmpty = true then ([] : Txt)
            else if pending.contains '\n' = true then [' '] else pending) ++
            c :: subNlGo [] cs from by simp [subNlGo, hc]]
      rw [hfl, ih [] (by simp) fun x hx => hl x (by simp [hx])]
      simp

theorem collapseGo_true_eq_false_of_head (l : Txt) (h : ∀ d ∈ l.head?, isWS d = false) :
    collapseGo true l = collapseGo false l := by
  cases l with
  | nil => rfl
  | cons d ds =>
    have hd : isWS d = false := h d rfl
    simp [collapseGo, hd]

theorem collapseGo_space_only :
    ∀ l : Txt, NoAdjWS l → (∀ c ∈ l, isWS c = true → c = ' ') → collapseGo false l = l := by
  intro l
  induction l with
  | nil => intro _ _; rfl
  | cons c cs ih =>
    intro hadj hsp
    unfold NoAdjWS at hadj
    have hadj2 := List.chain'_cons'.mp hadj
    by_cases hc : isWS c = true
    · have hceq : c = ' ' := hsp c (by simp) hc
      have hhead : ∀ d ∈ cs.head?, isWS d = false := by
        intro d hd
        have h2 := hadj2.1 d hd
        by_contra hcon
        exact h2 ⟨hc, Bool.not_eq_false _ |>.mp hcon⟩
      rw [show collapseGo false (c :: cs) = ' ' :: collapseGo true cs from by
        simp [collapseGo, hc]]
      rw [collapseGo_true_eq_false_of_head cs hhead,
        ih hadj2.2 fun x hx hw => hsp x (by simp [hx]) hw, hceq]
    · rw [show collapseGo false (c :: cs) = c :: collapseGo false cs from by
        simp [collapseGo, hc]]
      rw [ih hadj2.2 fun x hx hw => hsp x (by simp [hx]) hw]

theorem dropWhile_eq_self_of_head (p : Char → Bool) (l : Txt)
    (h : ∀ c ∈ l.head?, p c = false) : l.dropWhile p = l := by
  cases l with
  | nil => rfl
  | cons c cs =>
    have hc : p c = false := h c rfl
    rw [List.dropWhile_cons, if_neg (by simp [hc])]

theorem pyStrip_of_trimmed (l : Txt) (h1 : ∀ c ∈ l.head?, isWS c = false)
    (h2 : ∀ c ∈ l.getLast?, isWS c = false) : pyStrip l = l := by
  unfold pyStrip
  rw [dropWhile_eq_self_of_head _ _ h1]
  rw [dropWhile_eq_self_of_head _ _ (by simpa [List.head?_reverse] using h2)]
  exact List.reverse_reverse l

theorem clean_text_of_clean (l : Txt) (h : Clean l) : clean_text l = l := by
  obtain ⟨h1, h2, h3, h4⟩ := h
  unfold clean_text
  rw [show subNlGo [] l = l by simpa using subNlGo_space_only l [] (by simp) h4]
  rw [collapseGo_space_only l h3 h4, pyStrip_of_trimmed l h1 h2]

/-! ### Lemmas about str.split and str.strip -/

theorem splitGo_dropWhile (l : Txt) : splitGo [] (l.dropWhile isWS) = splitGo [] l := by
  induction l with
  | nil => rfl
  | cons c cs ih =>
    by_cases hc : isWS c = true
    · rw [List.dropWhile_cons, if_pos hc, ih]
      rw [show splitGo [] (c :: cs) = splitGo [] cs from by simp [splitGo, hc]]
    · rw [List.dropWhile_cons, if_neg (by simp [hc])]

theorem splitGo_ws_all (t : Txt) (h : ∀ c ∈ t, isWS c = true) :
    ∀ acc : Txt, splitGo acc t = if acc.isEmpty = true then [] else [acc.reverse] := by
  induction t with
  | nil => intro acc; rfl
  | cons c cs ih =>
    intro acc
    have hc := h c (by simp)
    have hcs : splitGo [] cs = [] := by
      have h2 := ih (fun x hx => h x (by simp [hx])) []
      simpa using h2
    rw [show splitGo acc (c :: cs) = (if acc.isEmpty = true then splitGo [] cs
        else acc.reverse :: splitGo [] cs) from by simp [splitGo, hc]]
    by_cases ha : acc.isEmpty = true
    · rw [if_pos ha, if_pos ha, hcs]
    · rw [if_neg ha, if_neg ha, hcs]

theorem splitGo_append_ws (t : Txt) (h : ∀ c ∈ t, isWS c = true) :
    ∀ (l acc : Txt), splitGo acc (l ++ t) = splitGo acc l := by
  intro l
  induction l with
  | nil =>
    intro acc
    rw [List.nil_append, splitGo_ws_all t h acc]
    rfl
  | cons c cs ih =>
    intro acc
    by_cases hc : isWS c = true
    · rw [show splitGo acc ((c :: cs) ++ t) = (if acc.isEmpty = true then splitGo [] (cs ++ t)
          else acc.reverse :: splitGo [] (cs ++ t)) from by simp [splitGo, hc]]
      rw [show splitGo acc (c :: cs) = (if acc.isEmpty = true then splitGo [] cs
          else acc.reverse :: splitGo [] cs) from by simp [splitGo, hc]]
      rw [ih []]
    · rw [show splitGo acc ((c :: cs) ++ t) = splitGo (c :: acc) (cs ++ t) from by
        simp [splitGo, hc]]
      rw [show splitGo acc (c :: cs) = splitGo (c :: acc) cs from by simp [splitGo, hc]]
      exact ih (c :: acc)

theorem pyStrip_decomp (l : Txt) :
    ∃ t, l.dropWhile isWS = pyStrip l ++ t ∧ ∀ c ∈ t, isWS c = true := by
  refine ⟨((l.dropWhile isWS).reverse.takeWhile isWS).reverse, ?_, ?_⟩
  · unfold pyStrip
    symm
    rw [← List.reverse_append, List.takeWhile_append_dropWhile, List.reverse_reverse]
  · intro c hc
    rw [List.mem_reverse] at hc
    exact List.mem_takeWhile_imp hc

theorem pySplit_pyStrip (l : Txt) : pySplit (pyStrip l) = pySplit l := by
  obtain ⟨t, ht, hws⟩ := pyStrip_decomp l
  unfold pySplit
  conv_rhs => rw [← splitGo_dropWhile l, ht]
  rw [splitGo_append_ws t hws]

/-! ### Lemmas about the stable sort -/

instance : IsTotal Elem (fun a b => a.y0 ≤ b.y0) := ⟨fun a b => le_total a.y0 b.y0⟩

instance : IsTrans Elem (fun a b => a.y0 ≤ b.y0) := ⟨fun _ _ _ h1 h2 => le_trans h1 h2⟩

theorem orderedInsert_all (a : Elem) (m : List Elem) (h : ∀ x ∈ m, a.y0 ≤ x.y0) :
    m.orderedInsert (fun x y => x.y0 ≤ y.y0) a = a :: m := by
  cases m with
  | nil => rfl
  | cons x xs => exact List.orderedInsert_of_le _ _ (h x (by simp))

theorem filter_orderedInsert (q : Elem → Bool) (a : Elem) :
    ∀ t : List Elem, t.Sorted (fun x y => x.y0 ≤ y.y0) →
      (t.orderedInsert (fun x y => x.y0 ≤ y.y0) a).filter q =
        if q a then (t.filter q).orderedInsert (fun x y => x.y0 ≤ y.y0) a else t.filter q := by
  intro t
  induction t with
  | nil =>
    intro _
    by_cases hq : q a = true <;> simp [List.orderedInsert, List.filter_cons, hq]
  | cons b bs ih =>
    intro hs
    have hsb := List.sorted_cons.mp hs
    by_cases hab : a.y0 ≤ b.y0
    · rw [show (b :: bs).orderedInsert (fun x y => x.y0 ≤ y.y0) a = a :: b :: bs from by
        simp [List.orderedInsert, hab]]
      by_cases hqa : q a = true <;> by_cases hqb : q b = true
      · rw [if_pos hqa]
        simp only [List.filter_cons, hqa, hqb, if_true]
        rw [show (b :: bs.filter q).orderedInsert (fun x y => x.y0 ≤ y.y0) a =
            a :: b :: bs.filter q from by simp [List.orderedInsert, hab]]
      · rw [if_pos hqa]
        simp only [List.filter_cons, hqa, hqb, Bool.false_eq_true, if_true, if_false]
        rw [orderedInsert_all a (bs.filter q) fun x hx => ?_]
        have hx2 := List.mem_filter.mp hx |>.1
        exact le_trans hab (hsb.1 x hx2)
      · rw [if_neg (by simp [hqa])]
        simp [List.filter_cons, hqa, hqb]
      · rw [if_neg (by simp [hqa])]
        simp [List.filter_cons, hqa, hqb]
    · rw [show (b :: bs).orderedInsert (fun x y => x.y0 ≤ y.y0) a =
          b :: bs.orderedInsert (fun x y => x.y0 ≤ y.y0) a from by simp [List.orderedInsert, hab]]
      rw [List.filter_cons, List.filter_cons, ih hsb.2]
      by_cases hqa : q a = true <;> by_cases hqb : q b = true
      · rw [if_pos hqa]
        simp only [hqb, if_true, if_pos hqa]
        rw [show (b :: bs.filter q).orderedInsert (fun x y => x.y0 ≤ y.y0) a =
            b :: (bs.filter q).orderedInsert (fun x y => x.y0 ≤ y.y0) a from by
          simp [List.orderedInsert, hab]]
      · simp [hqa, hqb]
      · simp [hqa, hqb]
      · simp [hqa, hqb]

theorem filter_insertionSort (q : Elem → Bool) (l : List Elem) :
    (l.insertionSort (fun x y => x.y0 ≤ y.y0)).filter q =
      (l.filter q).insertionSort (fun x y => x.y0 ≤ y.y0) := by
  induction l with
  | nil => rfl
  | cons a as ih =>
    rw [show (a :: as).insertionSort (fun x y => x.y0 ≤ y.y0) =
        (as.insertionSort (fun x y => x.y0 ≤ y.y0)).orderedInsert (fun x y => x.y0 ≤ y.y0) a
        from rfl]
    rw [filter_orderedInsert q a _ (List.sorted_insertionSort _ as), ih, List.filter_cons]
    by_cases hq : q a = true
    · rw [if_pos hq, if_pos hq]
      rfl
    · rw [if_neg (by simp [hq]), if_neg (by simp [hq])]

theorem insertionSort_eq_self_of_const (k : ℚ) (l : List Elem) (h : ∀ e ∈ l, e.y0 = k) :
    l.insertionSort (fun x y => x.y0 ≤ y.y0) = l := by
  induction l with
  | nil => rfl
  | cons a as ih =>
    rw [show (a :: as).insertionSort (fun x y => x.y0 ≤ y.y0) =
        (as.insertionSort (fun x y => x.y0 ≤ y.y0)).orderedInsert (fun x y => x.y0 ≤ y.y0) a
        from rfl]
    rw [ih fun e he => h e (by simp [he])]
    exact orderedInsert_all a as fun x hx => by
      rw [h a (by simp), h x (by simp [hx])]

/-! ### Lemmas about the element loop -/

theorem processElement_table (st : SecState) (y : ℚ) (d : List (List Txt)) :
    processElement st (.tablePh y d) = some (st, some (.table st.1 st.2 d)) := rfl

theorem processElement_chart (st : SecState) (y : ℚ) (d : Txt) :
    processElement st (.chartPh y d) = some (st, some (.chart st.1 st.2 d)) := rfl

theorem processElement_noLines (st : SecState) (y : ℚ) :
    processElement st (.block (.noLines y)) = some (st, none) := rfl

theorem processElement_text_empty (st : SecState) (y : ℚ) (lines : List Line)
    (h : (blockText lines).isEmpty = true) :
    processElement st (.block (.withLines y lines)) = some (st, none) := by
  simp [processElement, h]

theorem processElement_text_none (st : SecState) (y : ℚ) (lines : List Line)
    (hne : (blockText lines).isEmpty = false)
    (hcl : classify_text_block ⟨lines⟩ = none) :
    processElement st (.block (.withLines y lines)) = none := by
  simp [processElement, hne, hcl]

theorem processElement_text_of_classify (st : SecState) (y : ℚ) (lines : List Line) (tier : Tier)
    (hne : (blockText lines).isEmpty = false)
    (hcl : classify_text_block ⟨lines⟩ = some tier) :
    processElement st (.block (.withLines y lines)) =
      some (updateState st tier (blockText lines),
        some (.paragraph (updateState st tier (blockText lines)).1
          (updateState st tier (blockText lines)).2 (blockText lines))) := by
  simp [processElement, hne, hcl]

theorem stampLoop_cons_emit (st st1 : SecState) (e : Elem) (es : List Elem)
    (it : Option ContentItem) (h : processElement st e = some (st1, it)) :
    stampLoop st (e :: es) =
      match stampLoop st1 es with
      | none => none
      | some (st3, items) => some (st3, it.toList ++ items) := by
  rw [show stampLoop st (e :: es) = (match processElement st e with
    | none => none
    | some (st2, it2) =>
      match stampLoop st2 es with
      | none => none
      | some (st3, items) => some (st3, it2.toList ++ items)) from rfl, h]

theorem stampLoop_cons_none (st : SecState) (e : Elem) (es : List Elem)
    (h : processElement st e = none) : stampLoop st (e :: es) = none := by
  rw [show stampLoop st (e :: es) = (match processElement st e with
    | none => none
    | some (st2, it2) =>
      match stampLoop st2 es with
      | none => none
      | some (st3, items) => some (st3, it2.toList ++ items)) from rfl, h]

theorem stampLoop_state_cons (st st1 : SecState) (e : Elem) (es : List Elem)
    (it : Option ContentItem) (h : processElement st e = some (st1, it)) :
    (stampLoop st (e :: es)).map Prod.fst = (stampLoop st1 es).map Prod.fst := by
  rw [stampLoop_cons_emit st st1 e es it h]
  cases heq : stampLoop st1 es with
  | none => rfl
  | some p =>
    obtain ⟨st3, items⟩ := p
    rfl

theorem stampLoop_state_filter :
    ∀ (l : List Elem) (st : SecState),
      (stampLoop st l).map Prod.fst = (stampLoop st (l.filter Elem.isBlock)).map Prod.fst := by
  intro l
  induction l with
  | nil => intro st; rfl
  | cons e es ih =>
    intro st
    cases e with
    | tablePh y d =>
      rw [stampLoop_state_cons st st _ es _ (processElement_table st y d)]
      rw [show (Elem.tablePh y d :: es).filter Elem.isBlock = es.filter Elem.isBlock from by
        simp [List.filter_cons, Elem.isBlock]]
      exact ih st
    | chartPh y d =>
      rw [stampLoop_state_cons st st _ es _ (processElement_chart st y d)]
      rw [show (Elem.chartPh y d :: es).filter Elem.isBlock = es.filter Elem.isBlock from by
        simp [List.filter_cons, Elem.isBlock]]
      exact ih st
    | block b =>
      rw [show (Elem.block b :: es).filter Elem.isBlock =
          Elem.block b :: es.filter Elem.isBlock from by simp [List.filter_cons, Elem.isBlock]]
      cases hpe : processElement st (.block b) with
      | none =>
        rw [stampLoop_cons_none st _ es hpe, stampLoop_cons_none st _ _ hpe]
      | some p =>
        obtain ⟨st1, it⟩ := p
        rw [stampLoop_state_cons st st1 _ es it hpe,
          stampLoop_state_cons st st1 _ (es.filter Elem.isBlock) it hpe]
        exact ih st1

theorem filter_isBlock_map_block (bs : List RawBlock) :
    (bs.map Elem.block).filter Elem.isBlock = bs.map Elem.block := by
  induction bs with
  | nil => rfl
  | cons b bs ih => simp [List.filter_cons, Elem.isBlock, ih]

theorem filter_isBlock_map_tablePh {α : Type} (f : α → ℚ) (g : α → List (List Txt))
    (ts : List α) : (ts.map fun t => Elem.tablePh (f t) (g t)).filter Elem.isBlock = [] := by
  induction ts with
  | nil => rfl
  | cons t ts ih => simp [List.filter_cons, Elem.isBlock, ih]

theorem filter_isBlock_map_chartPh {α : Type} (f : α → ℚ) (g : α → Txt)
    (ts : List α) : (ts.map fun t => Elem.chartPh (f t) (g t)).filter Elem.isBlock = [] := by
  induction ts with
  | nil => rfl
  | cons t ts ih => simp [List.filter_cons, Elem.isBlock, ih]

theorem mergedElems_filter_isBlock (n : Nat) (pin : PageInput)
    (r : Except String (List TableInput)) :
    (mergedElems n (setTables pin r)).filter Elem.isBlock =
      (pin.blocks.map Elem.block).insertionSort (fun x y => x.y0 ≤ y.y0) := by
  unfold mergedElems
  rw [filter_insertionSort]
  congr 1
  unfold rawElems
  rw [List.filter_append, List.filter_append]
  rw [show (setTables pin r).blocks = pin.blocks from rfl,
    show (setTables pin r).images = pin.images from rfl]
  rw [filter_isBlock_map_block, filter_isBlock_map_tablePh, filter_isBlock_map_chartPh]
  simp

theorem stampLoop_state_tables (st : SecState) (n : Nat) (pin : PageInput)
    (r r2 : Except String (List TableInput)) :
    (stampLoop st (mergedElems n (setTables pin r))).map Prod.fst =
      (stampLoop st (mergedElems n (setTables pin r2))).map Prod.fst := by
  rw [stampLoop_state_filter, mergedElems_filter_isBlock,
    stampLoop_state_filter (mergedElems n (setTables pin r2)), mergedElems_filter_isBlock]

theorem processElement_block_no_table (st st1 : SecState) (b : RawBlock)
    (ito : Option ContentItem) (h : processElement st (.block b) = some (st1, ito)) :
    ∀ it ∈ ito.toList, it.isTable = false := by
  cases b with
  | noLines y =>
    rw [processElement_noLines] at h
    simp only [Option.some.injEq, Prod.mk.injEq] at h
    intro it hit
    rw [← h.2] at hit
    simp at hit
  | withLines y lines =>
    by_cases hbt : (blockText lines).isEmpty = true
    · rw [processElement_text_empty st y lines hbt] at h
      simp only [Option.some.injEq, Prod.mk.injEq] at h
      intro it hit
      rw [← h.2] at hit
      simp at hit
    · have hbt2 : (blockText lines).isEmpty = false := by
        cases hbe : (blockText lines).isEmpty
        · rfl
        · exact absurd hbe hbt
      cases hcl : classify_text_block ⟨lines⟩ with
      | none => rw [processElement_text_none st y lines hbt2 hcl] at h; exact absurd h (by simp)
      | some tier =>
        rw [processElement_text_of_classify st y lines tier hbt2 hcl] at h
        simp only [Option.some.injEq, Prod.mk.injEq] at h
        intro it hit
        rw [← h.2] at hit
        simp only [Option.toList_some, List.mem_singleton] at hit
        subst hit
        rfl

theorem stampLoop_no_table_items :
    ∀ (l : List Elem) (st st2 : SecState) (items : List ContentItem),
      (∀ el ∈ l, ∀ y d, el ≠ Elem.tablePh y d) →
      stampLoop st l = some (st2, items) → ∀ it ∈ items, it.isTable = false := by
  intro l
  induction l with
  | nil =>
    intro st st2 items _ h it hit
    simp only [stampLoop, Option.some.injEq, Prod.mk.injEq] at h
    rw [← h.2] at hit
    simp at hit
  | cons e es ih =>
    intro st st2 items hne h it hit
    cases e with
    | tablePh y d => exact absurd rfl (hne _ (by simp) y d)
    | chartPh y d =>
      rw [stampLoop_cons_emit st st _ es _ (processElement_chart st y d)] at h
      cases heq : stampLoop st es with
      | none => rw [heq] at h; exact absurd h (by simp)
      | some p =>
        obtain ⟨st3, items2⟩ := p
        rw [heq] at h
        simp only [Option.some.injEq, Prod.mk.injEq, Option.toList_some] at h
        rw [← h.2] at hit
        rcases List.mem_cons.mp hit with hmem | hmem
        · subst hmem; rfl
        · exact ih st st3 items2 (fun el hel => hne el (by simp [hel])) heq it hmem
    | block b =>
      cases hpe : processElement st (.block b) with
      | none => rw [stampLoop_cons_none _ _ _ hpe] at h; exact absurd h (by simp)
      | some p =>
        obtain ⟨st1, ito⟩ := p
        rw [stampLoop_cons_emit st st1 _ es ito hpe] at h
        cases heq : stampLoop st1 es with
        | none => rw [heq] at h; exact absurd h (by simp)
        | some p2 =>
          obtain ⟨st3, items2⟩ := p2
          rw [heq] at h
          simp only [Option.some.injEq, Prod.mk.injEq] at h
          rw [← h.2] at hit
          rcases List.mem_append.mp hit with hmem | hmem
          · exact processElement_block_no_table st st1 b ito hpe it hmem
          · exact ih st1 st3 items2 (fun el hel => hne el (by simp [hel])) heq it hmem

theorem rawElems_mem (n : Nat) (pin : PageInput) (el : Elem) (h : el ∈ rawElems n pin) :
    (∃ b ∈ pin.blocks, el = .block b) ∨ (∃ y d, el = .tablePh y d) ∨ ∃ y d, el = .chartPh y d := by
  unfold rawElems at h
  rcases List.mem_append.mp h with h2 | h2
  · rcases List.mem_append.mp h2 with h3 | h3
    · obtain ⟨b, hb, rfl⟩ := List.mem_map.mp h3
      exact Or.inl ⟨b, hb, rfl⟩
    · obtain ⟨t, _, rfl⟩ := List.mem_map.mp h3
      exact Or.inr (Or.inl ⟨_, _, rfl⟩)
  · obtain ⟨p, _, rfl⟩ := List.mem_map.mp h2
    exact Or.inr (Or.inr ⟨_, _, rfl⟩)

theorem stampLoop_no_heading :
    ∀ (l : List Elem) (st st2 : SecState) (items : List ContentItem),
      (∀ y lines, Elem.block (RawBlock.withLines y lines) ∈ l →
        classify_text_block ⟨lines⟩ ≠ some Tier.Section ∧
          classify_text_block ⟨lines⟩ ≠ some Tier.SubSection) →
      stampLoop st l = some (st2, items) →
      st2 = st ∧ ∀ it ∈ items, it.sec = st.1 ∧ it.sub = st.2 := by
  intro l
  induction l with
  | nil =>
    intro st st2 items _ h
    simp only [stampLoop, Option.some.injEq, Prod.mk.injEq] at h
    refine ⟨h.1.symm, fun it hit => ?_⟩
    rw [← h.2] at hit
    simp at hit
  | cons e es ih =>
    intro st st2 items hnh h
    have step :
        ∀ it0 : Option ContentItem, processElement st e = some (st, it0) →
          (∀ it ∈ it0.toList, it.sec = st.1 ∧ it.sub = st.2) →
          st2 = st ∧ ∀ it ∈ items, it.sec = st.1 ∧ it.sub = st.2 := by
      intro it0 hpe hstamped
      rw [stampLoop_cons_emit st st e es it0 hpe] at h
      cases heq : stampLoop st es with
      | none => rw [heq] at h; exact absurd h (by simp)
      | some p =>
        obtain ⟨st3, items2⟩ := p
        rw [heq] at h
        simp only [Option.some.injEq, Prod.mk.injEq] at h
        obtain ⟨hst3, hitems⟩ := h
        have hrec := ih st st3 items2 (fun y lines hm => hnh y lines (by simp [hm])) heq
        refine ⟨hst3 ▸ hrec.1, fun it hit => ?_⟩
        rw [← hitems] at hit
        rcases List.mem_append.mp hit with hmem | hmem
        · exact hstamped it hmem
        · exact hrec.2 it hmem
    cases e with
    | tablePh y d =>
      refine step _ (processElement_table st y d) fun it hit => ?_
      simp only [Option.toList_some, List.mem_singleton] at hit
      subst hit
      exact ⟨rfl, rfl⟩
    | chartPh y d =>
      refine step _ (processElement_chart st y d) fun it hit => ?_
      simp only [Option.toList_some, List.mem_singleton] at hit
      subst hit
      exact ⟨rfl, rfl⟩
    | block b =>
      cases b with
      | noLines y =>
        refine step _ (processElement_noLines st y) fun it hit => ?_
        simp at hit
      | withLines y lines =>
        by_cases hbt : (blockText lines).isEmpty = true
        · refine step _ (processElement_text_empty st y lines hbt) fun it hit => ?_
          simp at hit
        · have hbt2 : (blockText lines).isEmpty = false := by
            cases hbe : (blockText lines).isEmpty
            · rfl
            · exact absurd hbe hbt
          cases hcl : classify_text_block ⟨lines⟩ with
          | none =>
            rw [stampLoop_cons_none st _ es (processElement_text_none st y lines hbt2 hcl)] at h
            exact absurd h (by simp)
          | some tier =>
            have hn := hnh y lines (by simp)
            have htier : tier = Tier.Paragraph := by
              cases tier
              · exact absurd hcl hn.1
              · exact absurd hcl hn.2
              · rfl
            subst htier
            refine step _ (processElement_text_of_classify st y lines Tier.Paragraph hbt2 hcl)
              fun it hit => ?_
            simp only [Option.toList_some, List.mem_singleton] at hit
            subst hit
            exact ⟨rfl, rfl⟩

theorem rawElems_no_tablePh_of_nil (n : Nat) (pin : PageInput) (y : ℚ) (d : List (List Txt)) :
    Elem.tablePh y d ∉ rawElems n (setTables pin (.ok [])) := by
  intro h
  unfold rawElems at h
  rcases List.mem_append.mp h with h2 | h2
  · rcases List.mem_append.mp h2 with h3 | h3
    · obtain ⟨b, _, hb⟩ := List.mem_map.mp h3
      exact absurd hb (by simp)
    · rw [show extract_tables_from_page (setTables pin (Except.ok [])).tables =
        ([] : List TableInput) from rfl] at h3
      simp at h3
  · obtain ⟨p, _, hb⟩ := List.mem_map.mp h2
    exact absurd hb (by simp)

theorem processPage_drop_tables (st : SecState) (n : Nat) (pin : PageInput)
    (ts : List TableInput) (st1 : SecState) (pg : Page)
    (h : processPage st n (setTables pin (.ok ts)) = some (st1, pg)) :
    ∃ pg0 : Page, processPage st n (setTables pin (.ok [])) = some (st1, pg0) ∧
      pg0.page_number = n ∧ ∀ it ∈ pg0.content, it.isTable = false := by
  unfold processPage at h ⊢
  cases heqT : stampLoop st (mergedElems n (setTables pin (.ok ts))) with
  | none => rw [heqT] at h; exact absurd h (by simp)
  | some p =>
    obtain ⟨stA, itemsA⟩ := p
    rw [heqT] at h
    simp only [Option.some.injEq, Prod.mk.injEq] at h
    have hstates := stampLoop_state_tables st n pin (.ok ts) (.ok [])
    rw [heqT] at hstates
    cases heq0 : stampLoop st (mergedElems n (setTables pin (.ok []))) with
    | none => rw [heq0] at hstates; simp at hstates
    | some p0 =>
      obtain ⟨stB, itemsB⟩ := p0
      rw [heq0] at hstates
      refine ⟨⟨n, itemsB⟩, ?_, rfl, ?_⟩
      · have hAB : stA = stB := by simpa using hstates
        show some (stB, (⟨n, itemsB⟩ : Page)) = some (st1, ⟨n, itemsB⟩)
        rw [← hAB, h.1]
      · refine stampLoop_no_table_items _ st stB itemsB ?_ heq0
        intro el hel y d hel2
        rw [hel2] at hel
        unfold mergedElems at hel
        rw [List.mem_insertionSort] at hel
        exact rawElems_no_tablePh_of_nil n pin y d hel

theorem parsePages_cons_eq (st : SecState) (n : Nat) (pin : PageInput)
    (rest : List PageInput) :
    parsePages st n (pin :: rest) =
      match processPage st n pin with
      | none => none
      | some (st2, pg) =>
        match parsePages st2 (n + 1) rest with
        | none => none
        | some pgs => some (pg :: pgs) := rfl

theorem processPage_error_eq_ok_nil (st : SecState) (n : Nat) (pin : PageInput) (e : String) :
    processPage st n (setTables pin (.error e)) = processPage st n (setTables pin (.ok [])) := rfl

theorem parsePages_cons_some (st : SecState) (n : Nat) (pin : PageInput)
    (rest : List PageInput) (st1 : SecState) (pg : Page)
    (h : processPage st n pin = some (st1, pg)) :
    parsePages st n (pin :: rest) =
      match parsePages st1 (n + 1) rest with
      | none => none
      | some pgs => some (pg :: pgs) := by
  rw [parsePages_cons_eq, h]

/-! ### The claims -/

/-- C1: the section/sub-section tracker is never reset between pages.  For a
page none of whose text blocks classifies as Section or SubSection, the
tracker state after the page equals the state `st` threaded in from the end
of the previous page (`parsePages` passes it through with no reset), and
every content item emitted on the page is stamped with exactly that state's
section and sub_section. -/
theorem C1_tracker_persists_across_pages (st : SecState) (n : Nat) (pin : PageInput)
    (st2 : SecState) (pg : Page)
    (hnh : ∀ y lines, RawBlock.withLines y lines ∈ pin.blocks →
      classify_text_block ⟨lines⟩ ≠ some Tier.Section ∧
        classify_text_block ⟨lines⟩ ≠ some Tier.SubSection)
    (h : processPage st n pin = some (st2, pg)) :
    st2 = st ∧ ∀ it ∈ pg.content, it.sec = st.1 ∧ it.sub = st.2 := by
  unfold processPage at h
  cases heq : stampLoop st (mergedElems n pin) with
  | none => rw [heq] at h; exact absurd h (by simp)
  | some p =>
    obtain ⟨stA, items⟩ := p
    rw [heq] at h
    simp only [Option.some.injEq, Prod.mk.injEq] at h
    have hres := stampLoop_no_heading _ st stA items ?_ heq
    · refine ⟨h.1 ▸ hres.1, fun it hit => ?_⟩
      rw [← h.2] at hit
      exact hres.2 it hit
    · intro y lines hm
      unfold mergedElems at hm
      rw [List.mem_insertionSort] at hm
      rcases rawElems_mem n pin _ hm with ⟨b, hb, heq2⟩ | ⟨y2, d2, heq2⟩ | ⟨y2, d2, heq2⟩
      · have hb2 : RawBlock.withLines y lines = b := by
          injection heq2
        exact hnh y lines (hb2 ▸ hb)
      · exact absurd heq2 (by simp)
      · exact absurd heq2 (by simp)

/-- C1 witness: a page with one paragraph-classified text block, processed
with the tracker state left over from a previous page, keeps that state and
stamps it on the emitted item. -/
theorem C1_witness :
    ((some ['I'], some ['S']) : SecState) = ((some ['I'], some ['S']) : SecState) ∧
      ∀ it ∈ (⟨2, [ContentItem.paragraph (some ['I']) (some ['S']) ['h', 'i']]⟩ : Page).content,
        it.sec = (some ['I'], (some ['S'] : Option Txt)).1 ∧
          it.sub = ((some ['I'] : Option Txt), some ['S']).2 :=
  C1_tracker_persists_across_pages (some ['I'], some ['S']) 2
    ⟨[RawBlock.withLines 5 [⟨[⟨['h', 'i'], 9, ['R']⟩]⟩]], .ok [], []⟩
    (some ['I'], some ['S'])
    ⟨2, [ContentItem.paragraph (some ['I']) (some ['S']) ['h', 'i']]⟩
    (by
      intro y lines hmem
      simp only [List.mem_singleton, RawBlock.withLines.injEq] at hmem
      rw [hmem.2]
      exact ⟨by decide, by decide⟩)
    (by decide)

/-- C2: the tracker transitions are exactly: Section text sets the section
and clears the sub-section, SubSection text sets only the sub-section,
Paragraph text changes nothing, and tables and charts read but never change
the state; moreover the item stamped for a Section-classified block itself
carries a null sub_section. -/
theorem C2_tracker_transitions (st : SecState) (t : Txt) :
    updateState st Tier.Section t = (some t, none) ∧
    updateState st Tier.SubSection t = (st.1, some t) ∧
    updateState st Tier.Paragraph t = st ∧
    (∀ y d, processElement st (.tablePh y d) = some (st, some (.table st.1 st.2 d))) ∧
    (∀ y d, processElement st (.chartPh y d) = some (st, some (.chart st.1 st.2 d))) ∧
    ∀ y lines st2 it, classify_text_block ⟨lines⟩ = some Tier.Section →
      processElement st (.block (.withLines y lines)) = some (st2, some it) → it.sub = none := by
  refine ⟨rfl, rfl, rfl, fun y d => rfl, fun y d => rfl, ?_⟩
  intro y lines st2 it hcl hpe
  by_cases hbt : (blockText lines).isEmpty = true
  · rw [processElement_text_empty st y lines hbt] at hpe
    simp at hpe
  · have hbt2 : (blockText lines).isEmpty = false := by
      cases hbe : (blockText lines).isEmpty
      · rfl
      · exact absurd hbe hbt
    rw [processElement_text_of_classify st y lines Tier.Section hbt2 hcl] at hpe
    simp only [updateState, Option.some.injEq, Prod.mk.injEq] at hpe
    rw [← hpe.2]
    rfl

/-- C2 witness: a Section-classified block processed while a sub-section was
active emits an item whose sub_section is null. -/
theorem C2_witness :
    ContentItem.sub (ContentItem.paragraph (some ['H', 'd']) none ['H', 'd']) = none :=
  (C2_tracker_transitions (some ['A'], some ['B']) ['T']).2.2.2.2.2 10
    [⟨[⟨['H', 'd'], 16, ['B', 'o', 'l', 'd']⟩]⟩] (some ['H', 'd'], none)
    (ContentItem.paragraph (some ['H', 'd']) none ['H', 'd']) (by decide) (by decide)

/-- C3: on a text block whose first line has at least one span, the
classifier implements exactly the spec's first-match-wins decision table over
the first span's size and boldness and the first line's whitespace-separated
word count. -/
theorem C3_classifier_decision_table (restL : List Line) (fs : Span) (restS : List Span) :
    classify_text_block ⟨⟨fs :: restS⟩ :: restL⟩ =
      some (classifySpec fs (firstLineWordCount ⟨fs :: restS⟩)) := by
  have h1 : classify_text_block ⟨⟨fs :: restS⟩ :: restL⟩ =
      (if HEADING_FONT_SIZE_THRESHOLD < fs.size ∧ is_bold fs = true then some Tier.Section
       else if SUBHEADING_FONT_SIZE_THRESHOLD < fs.size ∧ is_bold fs = true then
         some Tier.SubSection
       else if is_bold fs = true ∧
           (pySplit (pyStrip (((fs :: restS).map Span.text).flatten))).length <
             HEADING_WORD_COUNT_THRESHOLD then some Tier.SubSection
       else some Tier.Paragraph) := rfl
  rw [h1, pySplit_pyStrip]
  unfold classifySpec firstLineWordCount
  split_ifs <;> rfl

/-- C4: the merged element sequence of a page is the stable ascending sort of
the concatenation [text blocks, tables, images] by the top coordinate: it is
a permutation of that concatenation, sorted by y0, and for every key the
elements with that key keep their relative order from the concatenation. -/
theorem C4_merged_order_stable_sort (page_num : Nat) (pin : PageInput) :
    (mergedElems page_num pin).Perm (rawElems page_num pin) ∧
      (mergedElems page_num pin).Sorted (fun a b => a.y0 ≤ b.y0) ∧
      ∀ k : ℚ, (mergedElems page_num pin).filter (fun e => e.y0 == k) =
        (rawElems page_num pin).filter (fun e => e.y0 == k) := by
  refine ⟨List.perm_insertionSort _ _, List.sorted_insertionSort _ _, fun k => ?_⟩
  unfold mergedElems
  rw [filter_insertionSort]
  refine insertionSort_eq_self_of_const k _ fun e he => ?_
  have h2 := (List.mem_filter.mp he).2
  simpa using h2

/-- C5: a text block with non-empty cleaned text is always emitted as a
paragraph item, whatever its classified tier, and the tracker is updated
before the stamp: a Section-tier block's own item carries its own text as
section, a SubSection-tier block's own item carries its own text as
sub_section. -/
theorem C5_heading_blocks_also_emitted (st : SecState) (y : ℚ) (lines : List Line)
    (tier : Tier) (hne : (blockText lines).isEmpty = false)
    (hcl : classify_text_block ⟨lines⟩ = some tier) :
    processElement st (.block (.withLines y lines)) =
      some (updateState st tier (blockText lines),
        some (.paragraph (updateState st tier (blockText lines)).1
          (updateState st tier (blockText lines)).2 (blockText lines))) ∧
      (tier = Tier.Section → (updateState st tier (blockText lines)).1 =
        some (blockText lines)) ∧
      (tier = Tier.SubSection → (updateState st tier (blockText lines)).2 =
        some (blockText lines)) := by
  refine ⟨processElement_text_of_classify st y lines tier hne hcl, ?_, ?_⟩
  · intro h
    subst h
    rfl
  · intro h
    subst h
    rfl

/-- C5 witness: a concrete Section-classified block is emitted as a
paragraph stamped with itself as a section. -/
theorem C5_witness :
    processElement ((some ['A'], some ['B']) : SecState)
        (.block (.withLines 3 [⟨[⟨['T', 'i'], 16, ['B', 'o', 'l', 'd']⟩]⟩])) =
      some (updateState ((some ['A'], some ['B']) : SecState) Tier.Section
          (blockText [⟨[⟨['T', 'i'], 16, ['B', 'o', 'l', 'd']⟩]⟩]),
        some (.paragraph
          (updateState ((some ['A'], some ['B']) : SecState) Tier.Section
            (blockText [⟨[⟨['T', 'i'], 16, ['B', 'o', 'l', 'd']⟩]⟩])).1
          (updateState ((some ['A'], some ['B']) : SecState) Tier.Section
            (blockText [⟨[⟨['T', 'i'], 16, ['B', 'o', 'l', 'd']⟩]⟩])).2
          (blockText [⟨[⟨['T', 'i'], 16, ['B', 'o', 'l', 'd']⟩]⟩]))) ∧
      (Tier.Section = Tier.Section →
        (updateState ((some ['A'], some ['B']) : SecState) Tier.Section
          (blockText [⟨[⟨['T', 'i'], 16, ['B', 'o', 'l', 'd']⟩]⟩])).1 =
          some (blockText [⟨[⟨['T', 'i'], 16, ['B', 'o', 'l', 'd']⟩]⟩])) ∧
      (Tier.Section = Tier.SubSection →
        (updateState ((some ['A'], some ['B']) : SecState) Tier.Section
          (blockText [⟨[⟨['T', 'i'], 16, ['B', 'o', 'l', 'd']⟩]⟩])).2 =
          some (blockText [⟨[⟨['T', 'i'], 16, ['B', 'o', 'l', 'd']⟩]⟩])) :=
  C5_heading_blocks_also_emitted (some ['A'], some ['B']) 3
    [⟨[⟨['T', 'i'], 16, ['B', 'o', 'l', 'd']⟩]⟩] Tier.Section (by decide) (by decide)

/-- C6: the claim says the classifier is total and returns Paragraph for a
block with no lines and for a block whose first line has no spans.  The code
handles the no-lines case but indexes `first_line['spans'][0]` unguarded, so
a first line with no spans raises IndexError (modeled as `none`) instead of
returning Paragraph. -/
theorem C6_classifier_degenerate_cases :
    classify_text_block ⟨[]⟩ = some Tier.Paragraph ∧
      classify_text_block ⟨[⟨[]⟩]⟩ = none :=
  ⟨rfl, rfl⟩

/-- C7: a table-extraction failure on one page is page-local.  If parsing
succeeds with page p's tables extracted as `ts`, then parsing with page p's
extraction raising instead still succeeds, yields the same number of pages,
leaves every other page's output unchanged, and page p's output contains no
table item. -/
theorem C7_table_failure_page_local (pre : List PageInput) (pin : PageInput)
    (post : List PageInput) (e : String) (ts : List TableInput) :
    ∀ (st : SecState) (n : Nat) (good : List Page),
      parsePages st n (pre ++ setTables pin (.ok ts) :: post) = some good →
      ∃ bad : List Page,
        parsePages st n (pre ++ setTables pin (.error e) :: post) = some bad ∧
          bad.length = good.length ∧
          (∀ i, i ≠ pre.length → bad[i]? = good[i]?) ∧
          ∀ pgBad ∈ bad[pre.length]?, ∀ it ∈ pgBad.content, it.isTable = false := by
  induction pre with
  | nil =>
    intro st n good h
    rw [List.nil_append] at h ⊢
    cases hpp : processPage st n (setTables pin (.ok ts)) with
    | none =>
      rw [parsePages_cons_eq, hpp] at h
      exact absurd h (by simp)
    | some p =>
      obtain ⟨st1, pg⟩ := p
      rw [parsePages_cons_some st n _ post st1 pg hpp] at h
      cases hrest : parsePages st1 (n + 1) post with
      | none => rw [hrest] at h; exact absurd h (by simp)
      | some pgs =>
        rw [hrest] at h
        simp only [Option.some.injEq] at h
        obtain ⟨pg0, hpp0, _, hnt⟩ := processPage_drop_tables st n pin ts st1 pg hpp
        have hpp0e : processPage st n (setTables pin (.error e)) = some (st1, pg0) := by
          rw [processPage_error_eq_ok_nil]
          exact hpp0
        refine ⟨pg0 :: pgs, ?_, ?_, ?_, ?_⟩
        · rw [parsePages_cons_some st n _ post st1 pg0 hpp0e, hrest]
        · rw [← h]
          simp
        · intro i hi
          cases i with
          | zero => exact absurd rfl hi
          | succ j =>
            rw [← h]
            simp
        · intro pgBad hpgBad
          simp only [List.length_nil, List.getElem?_cons_zero, Option.mem_def,
            Option.some.injEq] at hpgBad
          intro it hit
          exact hnt it (hpgBad ▸ hit)
  | cons p0 pre ih =>
    intro st n good h
    rw [List.cons_append] at h ⊢
    cases hpp : processPage st n p0 with
    | none =>
      rw [parsePages_cons_eq, hpp] at h
      exact absurd h (by simp)
    | some p =>
      obtain ⟨st1, pg⟩ := p
      rw [parsePages_cons_some st n p0 _ st1 pg hpp] at h
      cases hrest : parsePages st1 (n + 1) (pre ++ setTables pin (.ok ts) :: post) with
      | none => rw [hrest] at h; exact absurd h (by simp)
      | some pgs =>
        rw [hrest] at h
        simp only [Option.some.injEq] at h
        obtain ⟨bad2, hbad2, hlen, hidx, hnt⟩ := ih st1 (n + 1) pgs hrest
        refine ⟨pg :: bad2, ?_, ?_, ?_, ?_⟩
        · rw [parsePages_cons_some st n p0 _ st1 pg hpp, hbad2]
        · rw [← h]
          simp [hlen]
        · intro i hi
          cases i with
          | zero =>
            rw [← h]
            simp
          | succ j =>
            rw [← h]
            simp only [List.getElem?_cons_succ]
            refine hidx j fun hj => hi ?_
            simp [List.length_cons, hj]
        · intro pgBad hpgBad
          simp only [List.length_cons, List.getElem?_cons_succ] at hpgBad
          exact hnt pgBad hpgBad

/-- C7 witness: a one-page document whose only table extraction raises still
parses, with the page present and containing no table item. -/
theorem C7_witness :
    ∃ bad : List Page,
      parsePages ((none, none) : SecState) 1
          (([] : List PageInput) ++
            setTables ⟨[], .ok [], []⟩ (.error "x") :: ([] : List PageInput)) = some bad ∧
        bad.length =
          [(⟨1, [ContentItem.table none none [[['h']], [['v']]]]⟩ : Page)].length ∧
        (∀ i, i ≠ ([] : List PageInput).length →
          bad[i]? = [(⟨1, [ContentItem.table none none [[['h']], [['v']]]]⟩ : Page)][i]?) ∧
        ∀ pgBad ∈ bad[([] : List PageInput).length]?,
          ∀ it ∈ pgBad.content, it.isTable = false :=
  C7_table_failure_page_local [] ⟨[], .ok [], []⟩ [] "x" [⟨2, [['h']], [[['v']]]⟩]
    (none, none) 1 [⟨1, [ContentItem.table none none [[['h']], [['v']]]]⟩] (by decide)

/-- C8 counterexample: the claim says a zero-page document makes the parse
fail rather than return an empty `Document`; the code has no such check and
returns a document with an empty page list. -/
theorem C8_counterexample :
    parse_pdf_to_json (some []) = some ⟨[]⟩ ∧ parse_pdf_to_json (some []) ≠ none :=
  ⟨rfl, by decide⟩

/-- C8 amended: a document that cannot be opened aborts the run (the
exception surfaces to the caller); a successfully opened document with zero
pages does not abort and yields a `Document` with no pages. -/
theorem C8_open_failure_aborts_zero_pages_ok :
    parse_pdf_to_json none = none ∧ parse_pdf_to_json (some []) = some ⟨[]⟩ :=
  ⟨rfl, rfl⟩

/-- C9: `clean_text` collapses every maximal whitespace run to one ASCII
space and trims (the spec-worded `cleanTextSpec`), is idempotent, and leaves
any already-clean string unchanged. -/
theorem C9_normalizer_properties (t : Txt) :
    clean_text t = cleanTextSpec t ∧ clean_text (clean_text t) = clean_text t ∧
      (Clean t → clean_text t = t) := by
  refine ⟨?_, clean_text_of_clean _ (clean_text_clean t), clean_text_of_clean t⟩
  unfold clean_text cleanTextSpec
  rw [(subNl_collapse_main t).1]

/-- C9 witness: a concrete clean string is a fixed point of the
normalizer. -/
theorem C9_witness :
    Clean ['a', ' ', 'b'] ∧ clean_text ['a', ' ', 'b'] = ['a', ' ', 'b'] :=
  have hclean : Clean ['a', ' ', 'b'] :=
    ⟨by decide, by decide,
      List.Chain.cons (by decide) (List.Chain.cons (by decide) List.Chain.nil), by decide⟩
  ⟨hclean, (C9_normalizer_properties ['a', ' ', 'b']).2.2 hclean⟩

/-- C10: a merged element that is neither a table placeholder nor a chart
placeholder and has no `'lines'` key yields no content item and leaves the
tracker state unchanged: the loop skips it entirely. -/
theorem C10_no_lines_block_skipped (st : SecState) (y : ℚ) (es : List Elem) :
    processElement st (.block (.noLines y)) = some (st, none) ∧
      stampLoop st (.block (.noLines y) :: es) = stampLoop st es := by
  refine ⟨rfl, ?_⟩
  rw [stampLoop_cons_emit st st _ es none (processElement_noLines st y)]
  cases heq : stampLoop st es with
  | none => rfl
  | some p =>
    obtain ⟨st3, items⟩ := p
    rfl

end PdfToJson
